import Mathlib

/- Shallow embedding of the word-counting crates of Totodore/centreon-technical-test.

   The two library crates, `file-processor` and `string-stream-processor`, each expose
   `count_line_words` (a lazy stream of per-line word counts for one identified source)
   and `count_line_words_concurrent` (an unordered concurrent merge of those streams,
   folded into a `HashMap<&str, Vec<usize>>`).

   Modelling choices:
   - text is `List Char`; a raw line that cannot be decoded as text is `none`;
   - the unordered merge performed by `flat_map_unordered` is modelled relationally:
     any interleaving of the per-source streams that preserves each stream's own order;
   - the deterministic single-threaded executor on static in-memory (always-ready)
     sources is modelled by a deterministic round-robin merge relation;
   - `HashMap<&str, Vec<usize>>` with `entry(id).or_default().push(count)` is modelled
     by an association list with an append-or-create operation, observed via lookup. -/

/-- Model of Rust `str::split_whitespace`: split on whitespace characters and discard
the empty tokens, so the result is the list of maximal non-whitespace runs. -/
def split_whitespace (l : List Char) : List (List Char) :=
  (l.splitOnP fun c => c.isWhitespace).filter fun t => !t.isEmpty

/-- Model of `line.split_whitespace().count()` from `count_line_words`. -/
def lineWordCount (l : List Char) : Nat :=
  (split_whitespace l).length

/-- Model of tokio's line splitting (`AsyncBufReadExt::lines`): a line that was
terminated by a newline has a trailing carriage return stripped. -/
def stripTrailingCR (l : List Char) : List Char :=
  match l.getLast? with
  | some c => if c = '\r' then l.dropLast else l
  | none => l

/-- Model of the list of decoded lines produced by `LinesStream::new(rd.lines())` for
an in-memory text source: split the text on newline characters; a terminating newline
produces no trailing empty line. -/
def linesOf (l : List Char) : List (List Char) :=
  let chunks := l.splitOnP fun c => c = '\n'
  match chunks.getLast? with
  | some last => chunks.dropLast.map stripTrailingCR ++ (if last.isEmpty then [] else [last])
  | none => []

/-- Model of `count_line_words((id, rd))` when every line of the source decodes:
the stream of `(identifier, word count)` pairs, one per line, in line order. -/
def count_line_words (id : String) (lines : List (List Char)) : List (String × Nat) :=
  lines.map fun l => (id, lineWordCount l)

/-- Model of `count_line_words((id, rd))` on raw lines, where `none` is a line that
cannot be decoded as text.  `line.unwrap()` panics on such a line, so the stream
emits the counts of the decoded prefix and then aborts; the boolean records whether
the stream was aborted by the panic instead of terminating normally. -/
def count_line_words_raw (id : String) : List (Option (List Char)) → List (String × Nat) × Bool
  | [] => ([], false)
  | none :: _ => ([], true)
  | some l :: rest =>
      let r := count_line_words_raw id rest
      ((id, lineWordCount l) :: r.1, r.2)

/-- Model of `HashMap<&str, Vec<usize>>`, observed through `getCounts` below. -/
abbrev ResultMap := List (String × List Nat)

/-- Lookup in the result map (`HashMap::get`). -/
def getCounts : ResultMap → String → Option (List Nat)
  | [], _ => none
  | (k, v) :: rest, id => if k = id then some v else getCounts rest id

/-- The counts stored for an identifier, `[]` when the key is absent. -/
def getAll (m : ResultMap) (id : String) : List Nat :=
  (getCounts m id).getD []

/-- Model of `acc.entry(id).or_default().push(count)`: append to the entry of `id`,
creating it with a singleton vector when absent. -/
def entryPush : ResultMap → String → Nat → ResultMap
  | [], id, c => [(id, [c])]
  | (k, v) :: rest, id, c =>
      if k = id then (k, v ++ [c]) :: rest else (k, v) :: entryPush rest id c

/-- Folding a stream of `(identifier, count)` items into an accumulator, as the
`fold` in `count_line_words_concurrent` does. -/
def foldInto (acc : ResultMap) (items : List (String × Nat)) : ResultMap :=
  items.foldl (fun a itm => entryPush a itm.1 itm.2) acc

/-- The result map built by the `fold` in `count_line_words_concurrent` from the
merged stream of `(identifier, count)` items. -/
def foldCounts (items : List (String × Nat)) : ResultMap :=
  foldInto [] items

/-- `Interleave xs ys zs` says that `zs` is a merge of `xs` and `ys` preserving the
internal order of each. -/
inductive Interleave {α : Type} : List α → List α → List α → Prop where
  | nil : Interleave [] [] []
  | left {a : α} {xs ys zs : List α} : Interleave xs ys zs → Interleave (a :: xs) ys (a :: zs)
  | right {a : α} {xs ys zs : List α} : Interleave xs ys zs → Interleave xs (a :: ys) (a :: zs)

/-- `InterleavingN ls zs` says that `zs` is a merge of all the lists in `ls`,
preserving each list's internal order.  This is the ordering guarantee of
`flat_map_unordered`: items of one inner stream stay in order, arrival across
streams is arbitrary. -/
inductive InterleavingN {α : Type} : List (List α) → List α → Prop where
  | nil : InterleavingN [] []
  | cons {xs : List α} {ls : List (List α)} {rest zs : List α} :
      Interleave xs rest zs → InterleavingN ls rest → InterleavingN (xs :: ls) zs

/-- Deterministic round-robin merge: the polling discipline of the single-threaded
executor driving `flat_map_unordered` over static in-memory sources, whose streams
are always ready.  Each step takes the head of the first stream (sending its tail to
the back of the queue) or drops the first stream when exhausted. -/
inductive MergeRR {α : Type} : List (List α) → List α → Prop where
  | nil : MergeRR [] []
  | skip {ls : List (List α)} {ms : List α} : MergeRR ls ms → MergeRR ([] :: ls) ms
  | emit {a : α} {tl : List α} {ls : List (List α)} {ms : List α} :
      MergeRR (ls ++ [tl]) ms → MergeRR ((a :: tl) :: ls) (a :: ms)

/-- Model of `count_line_words_concurrent`: `m` is a possible result for the given
sources, i.e. the fold of some order-preserving interleaving of the per-source
streams produced by `count_line_words`. -/
def count_line_words_concurrent (sources : List (String × List (List Char)))
    (m : ResultMap) : Prop :=
  ∃ merged, InterleavingN (sources.map fun s => count_line_words s.1 s.2) merged ∧
    m = foldCounts merged

/-- Model of `count_line_words_concurrent` as executed by the deterministic
single-threaded runtime on static in-memory sources: the merged stream arises from
the round-robin polling discipline. -/
def count_line_words_concurrent_rr (sources : List (String × List (List Char)))
    (m : ResultMap) : Prop :=
  ∃ merged, MergeRR (sources.map fun s => count_line_words s.1 s.2) merged ∧
    m = foldCounts merged

/-- Spec-side definition, independent of `split_whitespace`: the number of maximal
non-whitespace runs of a line, counted by a state machine that counts the positions
where a non-whitespace character starts a new run.  The flag records whether the
previous character was inside a run. -/
def maximalRunsAux : Bool → List Char → Nat
  | _, [] => 0
  | inRun, c :: cs =>
      if c.isWhitespace then maximalRunsAux false cs
      else (if inRun then 0 else 1) + maximalRunsAux true cs

/-- The number of maximal non-whitespace runs of a line (spec-side definition). -/
def maximalRuns (l : List Char) : Nat :=
  maximalRunsAux false l

namespace SSP

/- Embedding of the `string-stream-processor` crate.  Its `lib.rs` defines the same
two functions as `file-processor` (the parameter is named `id` instead of `path`);
the definitions below mirror that source file. -/

/-- Model of `line.split_whitespace().count()` in `string-stream-processor`. -/
def lineWordCount (l : List Char) : Nat :=
  ((l.splitOnP fun c => c.isWhitespace).filter fun t => !t.isEmpty).length

/-- Model of `string-stream-processor`'s `count_line_words` on decodable lines. -/
def count_line_words (id : String) (lines : List (List Char)) : List (String × Nat) :=
  lines.map fun l => (id, SSP.lineWordCount l)

/-- Model of `acc.entry(id).or_default().push(count)` in `string-stream-processor`. -/
def entryPush : ResultMap → String → Nat → ResultMap
  | [], id, c => [(id, [c])]
  | (k, v) :: rest, id, c =>
      if k = id then (k, v ++ [c]) :: rest else (k, v) :: SSP.entryPush rest id c

/-- The result map built by `string-stream-processor`'s fold from a merged stream. -/
def foldCounts (items : List (String × Nat)) : ResultMap :=
  items.foldl (fun a itm => SSP.entryPush a itm.1 itm.2) []

/-- Model of `string-stream-processor`'s `count_line_words_concurrent`. -/
def count_line_words_concurrent (sources : List (String × List (List Char)))
    (m : ResultMap) : Prop :=
  ∃ merged, InterleavingN (sources.map fun s => SSP.count_line_words s.1 s.2) merged ∧
    m = SSP.foldCounts merged

end SSP

/-- The six-line text of the `test_count_line_words` fixture (a Rust raw string:
the `\n` pairs inside it are a literal backslash followed by `n`, and the real line
breaks and the indentation of the continuation lines are part of the text). -/
def loremText : String :=
  "\"Lorem ipsum dolor sit amet,\n            consectetur adipiscing elit, sed do eiusmod tempor incididunt ut labore et dolore magna\\n aliqua.\n            Ut enim ad minim veniam, quis nostrud exercitation ullamco laboris nisi ut aliquip ex ea\\n commodo\n            consequat. Duis aute irure dolor in reprehenderit in voluptate velit esse cillum dolore eu\\n fugiat\n            nulla pariatur. Excepteur sint occaecat cupidatat non proident\\n,\n            sunt in culpa qui officia deserunt mollit anim id est laborum.\""

/- Helper lemmas about `maximalRuns` and `split_whitespace`. -/

theorem maximalRunsAux_splitOnP (cs : List Char) :
    maximalRunsAux false cs =
      ((cs.splitOnP fun c => c.isWhitespace).filter fun t => !t.isEmpty).length ∧
    maximalRunsAux true cs =
      (((cs.splitOnP fun c => c.isWhitespace).tail).filter fun t => !t.isEmpty).length := by
  induction cs with
  | nil => simp [maximalRunsAux, List.splitOnP_nil]
  | cons c cs ih =>
    obtain ⟨ih1, ih2⟩ := ih
    rw [List.splitOnP_cons]
    cases hc : c.isWhitespace
    · rcases hsp : cs.splitOnP (fun c => c.isWhitespace) with _ | ⟨h0, t0⟩
      · exact absurd hsp (List.splitOnP_ne_nil _ _)
      rw [hsp] at ih1 ih2
      simp only [maximalRunsAux, hc, Bool.false_eq_true, if_false]
      rw [hsp]
      simp only [List.modifyHead, List.filter_cons, List.isEmpty_cons, Bool.not_false,
        if_true, List.length_cons, List.tail_cons] at ih1 ih2 ⊢
      constructor <;> omega
    · simp only [maximalRunsAux, hc, if_true, List.filter_cons, List.isEmpty_nil, Bool.not_true,
        if_false, List.tail_cons]
      exact ⟨ih1, ih1⟩

theorem maximalRuns_all_ws (l : List Char) (h : l.all Char.isWhitespace = true) :
    maximalRuns l = 0 := by
  unfold maximalRuns
  induction l with
  | nil => rfl
  | cons c cs ih =>
    simp only [List.all_cons, Bool.and_eq_true] at h
    simp [maximalRunsAux, h.1, ih h.2]

/- Helper lemmas about the raw (panic-aware) line counter. -/

theorem count_line_words_raw_ok (id : String) (ok : List (List Char)) :
    count_line_words_raw id (ok.map some) = (count_line_words id ok, false) := by
  induction ok with
  | nil => rfl
  | cons l rest ih => simp [count_line_words_raw, count_line_words, ih]

theorem count_line_words_raw_bad (id : String) (pre : List (List Char))
    (post : List (Option (List Char))) :
    count_line_words_raw id (pre.map some ++ none :: post) = (count_line_words id pre, true) := by
  induction pre with
  | nil => rfl
  | cons l rest ih => simp [count_line_words_raw, count_line_words, ih]

/- Helper lemmas about the per-source stream. -/

theorem count_line_words_key {id : String} {lines : List (List Char)} :
    ∀ p ∈ count_line_words id lines, p.1 = id := by
  intro p hp
  unfold count_line_words at hp
  rcases List.mem_map.1 hp with ⟨l, _, rfl⟩
  rfl

theorem filter_count_line_words (id : String) (lines : List (List Char)) :
    (count_line_words id lines).filter (fun p => p.1 == id) = count_line_words id lines :=
  List.filter_eq_self.2 fun p hp => by
    rw [count_line_words_key p hp]
    simp

theorem map_snd_count_line_words (id : String) (lines : List (List Char)) :
    (count_line_words id lines).map Prod.snd = lines.map lineWordCount := by
  unfold count_line_words
  rw [List.map_map]
  rfl

theorem any_count_line_words (id : String) {lines : List (List Char)} (hne : lines ≠ []) :
    ((count_line_words id lines).any fun p => p.1 == id) = true := by
  cases lines with
  | nil => exact absurd rfl hne
  | cons l rest => simp [count_line_words]

/- Helper lemmas about the map accumulator. -/

theorem foldInto_cons (acc : ResultMap) (itm : String × Nat) (rest : List (String × Nat)) :
    foldInto acc (itm :: rest) = foldInto (entryPush acc itm.1 itm.2) rest := rfl

theorem getCounts_entryPush (m : ResultMap) (k id : String) (c : Nat) :
    getCounts (entryPush m k c) id =
      if k = id then some ((getCounts m id).getD [] ++ [c]) else getCounts m id := by
  induction m with
  | nil => by_cases h : k = id <;> simp [entryPush, getCounts, h]
  | cons hd rest ih =>
    obtain ⟨k0, v⟩ := hd
    by_cases h1 : k0 = k
    · subst h1
      by_cases h2 : k0 = id <;> simp [entryPush, getCounts, h2]
    · by_cases h2 : k0 = id
      · subst h2
        have hk : ¬k = k0 := fun h => h1 h.symm
        simp [entryPush, getCounts, h1, hk]
      · simp [entryPush, getCounts, h1, h2, ih]

theorem getAll_entryPush (m : ResultMap) (k id : String) (c : Nat) :
    getAll (entryPush m k c) id = if k = id then getAll m id ++ [c] else getAll m id := by
  unfold getAll
  rw [getCounts_entryPush]
  by_cases h : k = id <;> simp [h]

theorem isSome_entryPush (m : ResultMap) (k id : String) (c : Nat) :
    (getCounts (entryPush m k c) id).isSome = ((k == id) || (getCounts m id).isSome) := by
  rw [getCounts_entryPush]
  by_cases h : k = id <;> simp [h]

theorem getAll_foldInto (items : List (String × Nat)) : ∀ (acc : ResultMap) (id : String),
    getAll (foldInto acc items) id
      = getAll acc id ++ (items.filter fun p => p.1 == id).map Prod.snd := by
  induction items with
  | nil => intro acc id; simp [foldInto]
  | cons itm rest ih =>
    intro acc id
    rw [foldInto_cons, ih, getAll_entryPush]
    by_cases h : itm.1 = id <;> simp [h, List.filter_cons]

theorem isSome_foldInto (items : List (String × Nat)) : ∀ (acc : ResultMap) (id : String),
    (getCounts (foldInto acc items) id).isSome
      = ((getCounts acc id).isSome || items.any fun p => p.1 == id) := by
  induction items with
  | nil => intro acc id; simp [foldInto]
  | cons itm rest ih =>
    intro acc id
    rw [foldInto_cons, ih, isSome_entryPush]
    by_cases h : itm.1 = id <;> simp [h, Bool.or_comm, Bool.or_assoc, Bool.or_left_comm]

theorem getCounts_eq_some_getAll (m : ResultMap) (id : String)
    (h : (getCounts m id).isSome = true) : getCounts m id = some (getAll m id) := by
  unfold getAll
  cases hg : getCounts m id
  · rw [hg] at h; cases h
  · rfl

theorem getCounts_foldCounts_pos (items : List (String × Nat)) (id : String)
    (h : (items.any fun p => p.1 == id) = true) :
    getCounts (foldCounts items) id = some ((items.filter fun p => p.1 == id).map Prod.snd) := by
  have hs : (getCounts (foldCounts items) id).isSome = true := by
    rw [foldCounts, isSome_foldInto]; simp [getCounts, h]
  rw [getCounts_eq_some_getAll _ _ hs, foldCounts, getAll_foldInto]
  simp [getAll, getCounts]

theorem getCounts_foldCounts_neg (items : List (String × Nat)) (id : String)
    (h : (items.any fun p => p.1 == id) = false) :
    getCounts (foldCounts items) id = none := by
  have hs : (getCounts (foldCounts items) id).isSome = false := by
    rw [foldCounts, isSome_foldInto]; simp [getCounts, h]
  cases hg : getCounts (foldCounts items) id
  · rfl
  · rw [hg] at hs; cases hs

theorem getCounts_eq_none_iff (m : ResultMap) (id : String) :
    getCounts m id = none ↔ id ∉ m.map Prod.fst := by
  induction m with
  | nil => simp [getCounts]
  | cons hd rest ih =>
    obtain ⟨k, v⟩ := hd
    by_cases h : k = id
    · subst h
      simp [getCounts]
    · simp only [List.map_cons, List.mem_cons]
      rw [show getCounts ((k, v) :: rest) id = getCounts rest id by simp [getCounts, h]]
      rw [ih]
      constructor
      · intro hn hmem
        rcases hmem with he | hm
        · exact h he.symm
        · exact hn hm
      · intro hn hm
        exact hn (Or.inr hm)

theorem keys_entryPush (m : ResultMap) (k : String) (c : Nat) :
    (entryPush m k c).map Prod.fst =
      if (getCounts m k).isSome then m.map Prod.fst else m.map Prod.fst ++ [k] := by
  induction m with
  | nil => simp [entryPush, getCounts]
  | cons hd rest ih =>
    obtain ⟨k0, v⟩ := hd
    by_cases h : k0 = k
    · subst h; simp [entryPush, getCounts]
    · simp [entryPush, getCounts, h, ih]
      by_cases hs : (getCounts rest k).isSome = true <;> simp [hs]

theorem nodup_entryPush (m : ResultMap) (k : String) (c : Nat)
    (h : (m.map Prod.fst).Nodup) : ((entryPush m k c).map Prod.fst).Nodup := by
  rw [keys_entryPush]
  by_cases hs : (getCounts m k).isSome = true
  · simp [hs, h]
  · have hnone : getCounts m k = none := by
      cases hg : getCounts m k
      · rfl
      · rw [hg] at hs; simp at hs
    have hk : k ∉ m.map Prod.fst := (getCounts_eq_none_iff m k).1 hnone
    simp [hs, List.nodup_append, h, hk]

theorem nodup_foldInto (items : List (String × Nat)) : ∀ acc : ResultMap,
    (acc.map Prod.fst).Nodup → ((foldInto acc items).map Prod.fst).Nodup := by
  induction items with
  | nil => intro acc h; exact h
  | cons itm rest ih =>
    intro acc h
    rw [foldInto_cons]
    exact ih _ (nodup_entryPush _ _ _ h)

theorem nodup_foldCounts (items : List (String × Nat)) :
    ((foldCounts items).map Prod.fst).Nodup :=
  nodup_foldInto items [] List.nodup_nil

/- Helper lemmas about interleavings. -/

theorem interleave_nil_left {α : Type} : ∀ {ys zs : List α}, Interleave [] ys zs → zs = ys
  | _, _, .nil => rfl
  | _, _, .right h => by rw [interleave_nil_left h]

theorem interleave_nil_right {α : Type} : ∀ {xs zs : List α}, Interleave xs [] zs → zs = xs
  | _, _, .nil => rfl
  | _, _, .left h => by rw [interleave_nil_right h]

theorem interleave_comm {α : Type} {xs ys zs : List α} (h : Interleave xs ys zs) :
    Interleave ys xs zs := by
  induction h with
  | nil => exact .nil
  | left _ ih => exact .right ih
  | right _ ih => exact .left ih

theorem interleave_map {α β : Type} (f : α → β) {xs ys zs : List α}
    (h : Interleave xs ys zs) : Interleave (xs.map f) (ys.map f) (zs.map f) := by
  induction h with
  | nil => exact .nil
  | left _ ih => exact .left ih
  | right _ ih => exact .right ih

theorem interleave_mem {α : Type} {xs ys zs : List α} (h : Interleave xs ys zs) :
    ∀ x ∈ zs, x ∈ xs ∨ x ∈ ys := by
  induction h with
  | nil => intro x hx; cases hx
  | left _ ih =>
    intro x hx
    rcases List.mem_cons.1 hx with he | hm
    · exact Or.inl (he ▸ List.mem_cons_self _ _)
    · rcases ih x hm with h1 | h2
      · exact Or.inl (List.mem_cons_of_mem _ h1)
      · exact Or.inr h2
  | right _ ih =>
    intro x hx
    rcases List.mem_cons.1 hx with he | hm
    · exact Or.inr (he ▸ List.mem_cons_self _ _)
    · rcases ih x hm with h1 | h2
      · exact Or.inl h1
      · exact Or.inr (List.mem_cons_of_mem _ h2)

theorem interleave_filter {α : Type} (p : α → Bool) {xs ys zs : List α}
    (h : Interleave xs ys zs) : (∀ b ∈ ys, p b = false) → zs.filter p = xs.filter p := by
  induction h with
  | nil => intro _; rfl
  | left _ ih =>
    intro hy
    rw [List.filter_cons, List.filter_cons, ih hy]
  | right _ ih =>
    intro hy
    rw [List.filter_cons]
    have hpa : p _ = false := hy _ (List.mem_cons_self _ _)
    rw [hpa]
    exact ih fun b hb => hy b (List.mem_cons_of_mem _ hb)

theorem interleave_left_nil {α : Type} : ∀ ys : List α, Interleave [] ys ys
  | [] => .nil
  | _ :: ys => .right (interleave_left_nil ys)

theorem interleave_append {α : Type} : ∀ xs ys : List α, Interleave xs ys (xs ++ ys)
  | [], ys => interleave_left_nil ys
  | _ :: xs, ys => .left (interleave_append xs ys)

theorem interleavingN_single {α : Type} {xs m : List α} (h : InterleavingN [xs] m) : m = xs := by
  cases h with
  | cons h1 h2 =>
    cases h2
    exact interleave_nil_right h1

theorem interleavingN_pair {α : Type} {xs ys m : List α} (h : InterleavingN [xs, ys] m) :
    Interleave xs ys m := by
  cases h with
  | cons h1 h2 =>
    rw [interleavingN_single h2] at h1
    exact h1

theorem interleavingN_mem {α : Type} {ls : List (List α)} {m : List α}
    (h : InterleavingN ls m) : ∀ x ∈ m, ∃ l ∈ ls, x ∈ l := by
  induction h with
  | nil => intro x hx; cases hx
  | cons h1 _ ih =>
    intro x hx
    rcases interleave_mem h1 x hx with h2 | h2
    · exact ⟨_, List.mem_cons_self _ _, h2⟩
    · rcases ih x h2 with ⟨l, hl, hxl⟩
      exact ⟨l, List.mem_cons_of_mem _ hl, hxl⟩

theorem interleavingN_flatten {α : Type} : ∀ ls : List (List α), InterleavingN ls ls.flatten
  | [] => .nil
  | xs :: ls => .cons (interleave_append xs ls.flatten) (interleavingN_flatten ls)

theorem mergeRR_det {α : Type} {ls : List (List α)} {m1 m2 : List α}
    (h1 : MergeRR ls m1) : MergeRR ls m2 → m1 = m2 := by
  induction h1 generalizing m2 with
  | nil =>
    intro h2
    cases h2
    rfl
  | skip _ ih =>
    intro h2
    cases h2 with
    | skip h2 => exact ih h2
  | emit _ ih =>
    intro h2
    cases h2 with
    | emit h2 => rw [ih h2]

/- The claims. -/

/-- C1: if a source yields a line that cannot be decoded as text, `count_line_words`
emits the counts of the decodable prefix and then aborts the generated sequence with
an error (the panic of `line.unwrap()`): no count is emitted for the bad line or for
any later line, and the abort is signalled rather than the line silently skipped;
the stream of any other source, a function of that source's own lines alone, still
emits exactly its own correct counts and terminates normally. -/
theorem undecodable_line_aborts_stream (id : String) (pre : List (List Char))
    (post : List (Option (List Char))) (id2 : String) (ok : List (List Char)) :
    count_line_words_raw id (pre.map some ++ none :: post) = (count_line_words id pre, true) ∧
    count_line_words_raw id2 (ok.map some) = (count_line_words id2 ok, false) :=
  ⟨count_line_words_raw_bad id pre post, count_line_words_raw_ok id2 ok⟩

/-- C2: the count emitted for a line equals the number of maximal non-whitespace
runs of the line, and an all-whitespace or empty line yields 0. -/
theorem word_count_eq_maximal_runs (l : List Char) :
    lineWordCount l = maximalRuns l ∧ (l.all Char.isWhitespace = true → lineWordCount l = 0) := by
  have h1 : lineWordCount l = maximalRuns l := ((maximalRunsAux_splitOnP l).1).symm
  exact ⟨h1, fun h => h1.trans (maximalRuns_all_ws l h)⟩

/-- Witness for C2 at the all-whitespace line made of two spaces and a tab. -/
theorem word_count_eq_maximal_runs_witness :
    (" \t ".toList.all Char.isWhitespace = true) ∧ lineWordCount " \t ".toList = 0 :=
  ⟨by decide, (word_count_eq_maximal_runs _).2 (by decide)⟩

/-- C3: for a single source with at least one line, every possible result of the
unordered merge maps that source's identifier to exactly one count per line of the
source, listed in the source's line order. -/
theorem single_source_entry (id : String) (lines : List (List Char))
    (merged : List (String × Nat)) (hne : lines ≠ [])
    (h : InterleavingN [count_line_words id lines] merged) :
    getCounts (foldCounts merged) id = some (lines.map lineWordCount) ∧
    (lines.map lineWordCount).length = lines.length := by
  have hm : merged = count_line_words id lines := interleavingN_single h
  subst hm
  refine ⟨?_, by simp⟩
  rw [getCounts_foldCounts_pos _ _ (any_count_line_words id hne)]
  rw [filter_count_line_words, map_snd_count_line_words]

/-- Witness for C3 on one source with one line. -/
theorem single_source_entry_witness :
    getCounts (foldCounts [("a", 1)]) "a" = some [1] ∧ ([1] : List Nat).length = 1 :=
  single_source_entry "a" [['x']] _ (by decide) (interleavingN_flatten _)

/-- C4: for two sources with distinct identifiers, under every interleaving of the
merged stream, each identifier's entry holds exactly its own source's per-line
counts in that source's line order. -/
theorem distinct_sources_entries (id1 id2 : String) (s1 s2 : List (List Char))
    (merged : List (String × Nat)) (hne : id1 ≠ id2)
    (h : InterleavingN [count_line_words id1 s1, count_line_words id2 s2] merged) :
    getAll (foldCounts merged) id1 = s1.map lineWordCount ∧
    getAll (foldCounts merged) id2 = s2.map lineWordCount := by
  have hint := interleavingN_pair h
  constructor
  · rw [foldCounts, getAll_foldInto]
    have hy : ∀ b ∈ count_line_words id2 s2, (b.1 == id1) = false := by
      intro b hb
      rw [count_line_words_key b hb]
      exact beq_eq_false_iff_ne.2 fun he => hne he.symm
    rw [interleave_filter _ hint hy, filter_count_line_words, map_snd_count_line_words]
    simp [getAll, getCounts]
  · rw [foldCounts, getAll_foldInto]
    have hy : ∀ b ∈ count_line_words id1 s1, (b.1 == id2) = false := by
      intro b hb
      rw [count_line_words_key b hb]
      exact beq_eq_false_iff_ne.2 hne
    rw [interleave_filter _ (interleave_comm hint) hy, filter_count_line_words,
      map_snd_count_line_words]
    simp [getAll, getCounts]

/-- Witness for C4 on two one-line sources with distinct identifiers. -/
theorem distinct_sources_entries_witness :
    getAll (foldCounts [("a", 1), ("b", 2)]) "a" = [1] ∧
    getAll (foldCounts [("a", 1), ("b", 2)]) "b" = [2] :=
  distinct_sources_entries "a" "b" [['x']] [['y', ' ', 'z']] _ (by decide)
    (interleavingN_flatten _)

/-- C5: when two sources share one identifier, the result never holds two entries
for equal identifier strings (the key list has no duplicates), and the single entry
for the shared identifier is an order-preserving interleaving of the two sources'
count lists, i.e. each source's counts appear in it in arrival order. -/
theorem shared_identifier_single_entry (id : String) (s1 s2 : List (List Char))
    (merged : List (String × Nat))
    (h : InterleavingN [count_line_words id s1, count_line_words id s2] merged) :
    ((foldCounts merged).map Prod.fst).Nodup ∧
    Interleave (s1.map lineWordCount) (s2.map lineWordCount) (getAll (foldCounts merged) id) := by
  have hint := interleavingN_pair h
  refine ⟨nodup_foldCounts merged, ?_⟩
  rw [foldCounts, getAll_foldInto]
  have hall : ∀ p ∈ merged, (p.1 == id) = true := by
    intro p hp
    rcases interleave_mem hint p hp with h2 | h2 <;> simp [count_line_words_key p h2]
  rw [List.filter_eq_self.2 hall]
  have hmap := interleave_map Prod.snd hint
  rw [map_snd_count_line_words, map_snd_count_line_words] at hmap
  simpa [getAll, getCounts] using hmap

/-- Witness for C5 on two one-line sources sharing the identifier. -/
theorem shared_identifier_single_entry_witness :
    ((foldCounts [("a", 1), ("a", 2)]).map Prod.fst).Nodup ∧
    Interleave [1] [2] (getAll (foldCounts [("a", 1), ("a", 2)]) "a") :=
  shared_identifier_single_entry "a" [['x']] [['y', ' ', 'z']] _ (interleavingN_flatten _)

/-- C6: over static in-memory sources the aggregation is executed by the
deterministic round-robin polling of the single-threaded runtime, so running it
twice on the same collection yields identical result maps. -/
theorem aggregation_deterministic (sources : List (String × List (List Char)))
    (m1 m2 : ResultMap) (h1 : count_line_words_concurrent_rr sources m1)
    (h2 : count_line_words_concurrent_rr sources m2) : m1 = m2 := by
  obtain ⟨g1, hg1, hm1⟩ := h1
  obtain ⟨g2, hg2, hm2⟩ := h2
  rw [hm1, hm2, mergeRR_det hg1 hg2]

/-- Witness for C6: one concrete source, aggregated twice. -/
theorem aggregation_deterministic_witness :
    foldCounts [("a", 1)] = foldCounts [("a", 1)] :=
  aggregation_deterministic [("a", [['x']])] _ _
    ⟨_, MergeRR.emit (MergeRR.skip MergeRR.nil), rfl⟩
    ⟨_, MergeRR.emit (MergeRR.skip MergeRR.nil), rfl⟩

/-- C7: zero sources are not an error: the only possible result of the aggregation
is the empty map, with no keys. -/
theorem empty_input_yields_empty_map (m : ResultMap)
    (h : count_line_words_concurrent [] m) : m = [] := by
  obtain ⟨merged, hi, hm⟩ := h
  simp only [List.map_nil] at hi
  cases hi
  exact hm

/-- Witness for C7: aggregating the empty source collection. -/
theorem empty_input_yields_empty_map_witness : foldCounts [] = ([] : ResultMap) :=
  empty_input_yields_empty_map _ ⟨[], InterleavingN.nil, rfl⟩

set_option maxRecDepth 8000

/-- C8: the six-line Lorem-ipsum source fixed in `test_count_line_words` yields for
its identifier exactly the count sequence `[5, 14, 16, 15, 8, 11]`. -/
theorem lorem_scenario_counts :
    (linesOf loremText.toList).length = 6 ∧
    (count_line_words "file1.txt" (linesOf loremText.toList)).map Prod.snd =
      [5, 14, 16, 15, 8, 11] := by
  constructor
  · decide
  · decide

/-- C9: an identifier all of whose sources are empty (zero lines) is entirely absent
from the result map: no entry is created before a first count arrives. -/
theorem empty_source_absent_from_map (sources : List (String × List (List Char)))
    (id : String) (m : ResultMap) (h : count_line_words_concurrent sources m)
    (hempty : ∀ s ∈ sources, s.1 = id → s.2 = []) :
    getCounts m id = none := by
  obtain ⟨merged, hi, hm⟩ := h
  subst hm
  apply getCounts_foldCounts_neg
  have hnone : ∀ p ∈ merged, (p.1 == id) = false := by
    intro p hp
    rcases interleavingN_mem hi p hp with ⟨l, hl, hpl⟩
    rcases List.mem_map.1 hl with ⟨s, hs, rfl⟩
    unfold count_line_words at hpl
    rcases List.mem_map.1 hpl with ⟨line, hline, rfl⟩
    by_cases he : s.1 = id
    · rw [hempty s hs he] at hline
      cases hline
    · exact beq_eq_false_iff_ne.2 he
  rw [List.any_eq_false]
  intro p hp
  rw [hnone p hp]
  exact Bool.false_ne_true

/-- Witness for C9: an empty source "a" next to a nonempty source "b". -/
theorem empty_source_absent_from_map_witness :
    getCounts (foldCounts [("b", 1)]) "a" = none :=
  empty_source_absent_from_map [("a", []), ("b", [['y']])] "a" _
    ⟨_, interleavingN_flatten _, rfl⟩ (by decide)

theorem entryPush_eq_ssp : ∀ (m : ResultMap) (id : String) (c : Nat),
    entryPush m id c = SSP.entryPush m id c := by
  intro m
  induction m with
  | nil => intro id c; rfl
  | cons hd rest ih =>
    intro id c
    obtain ⟨k, v⟩ := hd
    by_cases h : k = id <;> simp [entryPush, SSP.entryPush, h, ih]

theorem foldl_entryPush_eq_ssp (items : List (String × Nat)) : ∀ acc : ResultMap,
    items.foldl (fun a itm => entryPush a itm.1 itm.2) acc
      = items.foldl (fun a itm => SSP.entryPush a itm.1 itm.2) acc := by
  induction items with
  | nil => intro acc; rfl
  | cons itm rest ih =>
    intro acc
    rw [List.foldl_cons, List.foldl_cons, entryPush_eq_ssp, ih]

theorem foldCounts_eq_ssp (items : List (String × Nat)) :
    foldCounts items = SSP.foldCounts items :=
  foldl_entryPush_eq_ssp items []

theorem count_line_words_eq_ssp (id : String) (lines : List (List Char)) :
    count_line_words id lines = SSP.count_line_words id lines := rfl

/-- C10: the two crates implement the same aggregation: the per-line counter streams
agree, the folds agree, and for every input collection of identified sources the two
`count_line_words_concurrent` contracts admit exactly the same result maps. -/
theorem crates_equivalent (sources : List (String × List (List Char))) (m : ResultMap)
    (id : String) (lines : List (List Char)) (items : List (String × Nat)) :
    count_line_words id lines = SSP.count_line_words id lines ∧
    foldCounts items = SSP.foldCounts items ∧
    (count_line_words_concurrent sources m ↔ SSP.count_line_words_concurrent sources m) := by
  refine ⟨count_line_words_eq_ssp id lines, foldCounts_eq_ssp items, ?_⟩
  have hmap : (sources.map fun s => count_line_words s.1 s.2)
      = sources.map fun s => SSP.count_line_words s.1 s.2 := by
    simp only [count_line_words_eq_ssp]
  constructor
  · rintro ⟨g, hg, hm⟩
    refine ⟨g, ?_, ?_⟩
    · rw [← hmap]; exact hg
    · rw [hm, foldCounts_eq_ssp]
  · rintro ⟨g, hg, hm⟩
    refine ⟨g, ?_, ?_⟩
    · rw [hmap]; exact hg
    · rw [hm, ← foldCounts_eq_ssp]
